import Mathlib

/-!
# Verification of the site-autofix crawl/verify and fix-scoring core

A shallow embedding of `src/link-scanner.ts` and `src/link-fixer.ts`.
Strings are modelled as Lean `String` / `List Char`; JavaScript numbers are
modelled as exact rationals (`ℚ`); JavaScript `Map` (insertion-ordered) is
modelled as an association list; the WHATWG `URL` parser is modelled by a
character-level parser for absolute `scheme://host/path?query#fragment`
URLs (malformed input makes the parser fail, mirroring the `catch` branches
in the source).  Network effects (`fetch`, Playwright rendering) are
modelled as caller-supplied oracle functions, and promise rejection is
modelled with `Except`.
-/

namespace SiteAutofix

/-! ## Generic string helpers (on `List Char`) -/

/-- Split a character list at the first occurrence of `c`: returns the part
before the first `c` and, when `c` occurs, the part after it. -/
def splitFirst (c : Char) : List Char → List Char × Option (List Char)
  | [] => ([], none)
  | x :: xs =>
    if x = c then ([], some xs)
    else
      let r := splitFirst c xs
      (x :: r.1, r.2)

/-- `s.split("/")`-style splitting on a single character, keeping empty
pieces, as JavaScript `String.prototype.split` does. -/
def splitOnChar (c : Char) : List Char → List (List Char)
  | [] => [[]]
  | x :: xs =>
    let r := splitOnChar c xs
    if x = c then [] :: r
    else
      match r with
      | [] => [[x]]
      | h :: t => (x :: h) :: t

/-- Does the list end with `'/'`?  Models `normalized.endsWith("/")`. -/
def endsWithSlash (l : List Char) : Bool := l.getLast? == some '/'

/-! ## URL model (WHATWG `URL` restricted to absolute `scheme://host…` URLs) -/

/-- Characters allowed in a URL scheme (letters, digits, `+`, `-`, `.`). -/
def isSchemeChar (c : Char) : Bool :=
  c.isAlphanum || c = '+' || c = '-' || c = '.'

/-- Parsed absolute URL: `scheme://host` followed by a `/`-rooted path, an
optional query (`search`) and an optional fragment (`hash`).  Mirrors the
components of a WHATWG `URL` object that the source reads or writes. -/
structure URLRec where
  scheme : List Char
  host : List Char
  pathname : List Char
  search : Option (List Char)
  hash : Option (List Char)
deriving DecidableEq, Repr

/-- Parse an absolute URL.  Returns `none` on input that `new URL(...)`
would reject (no scheme, empty host, missing `//`).  Fragment and query are
split off first (at the first `#` / `?`), then `scheme:`, then the `//`,
then host up to the first `/`; an empty raw path serializes as `/`, as in
the WHATWG model for special schemes. -/
def parseUrlL (l : List Char) : Option URLRec :=
  let h := splitFirst '#' l
  let q := splitFirst '?' h.1
  let s := splitFirst ':' q.1
  match s.2 with
  | none => none
  | some rest =>
    if s.1 = [] then none
    else if ¬ s.1.all isSchemeChar then none
    else
      match rest with
      | '/' :: '/' :: hp =>
        let hs := splitFirst '/' hp
        if hs.1 = [] then none
        else
          let pathname := match hs.2 with
            | none => ['/']
            | some p => '/' :: p
          some ⟨s.1, hs.1, pathname, q.2, h.2⟩
      | _ => none

/-- Serialize an optional URL component with its leading marker char. -/
def optPart (c : Char) : Option (List Char) → List Char
  | none => []
  | some s => c :: s

/-- `url.toString()` on the parsed record. -/
def serializeL (p : URLRec) : List Char :=
  p.scheme ++ ':' :: '/' :: '/' :: p.host ++ p.pathname
    ++ optPart '?' p.search ++ optPart '#' p.hash

/-- `normalizeUrl` from `link-scanner.ts`: parse, clear the fragment,
re-serialize, and strip one trailing `/` unless the path is the root `/`;
unparseable input is returned unchanged. -/
def normalizeL (l : List Char) : List Char :=
  match parseUrlL l with
  | none => l
  | some p =>
    let p2 : URLRec := { p with hash := none }
    let normalized := serializeL p2
    if endsWithSlash normalized = true ∧ p2.pathname ≠ ['/'] then
      normalized.dropLast
    else normalized

/-- String-level wrapper of `normalizeUrl`. -/
def normalizeUrl (s : String) : String := String.mk (normalizeL s.data)

/-- Does the string still end in a strippable slash (a trailing `/` over a
non-root path)?  Exactly when this holds of `normalizeL l`, a further
application of `normalizeL` changes the list. -/
def stillStrippableL (l : List Char) : Bool :=
  match parseUrlL l with
  | none => false
  | some p => endsWithSlash l && decide (p.pathname ≠ ['/'])

/-- String-level wrapper of `stillStrippableL`. -/
def stillStrippable (s : String) : Bool := stillStrippableL s.data

/-! ## link-fixer.ts: fuzzy matching -/

/-- One row-update step of the Levenshtein dynamic program: given the
previous row (`diag :: rest`, indexed from column `j-1`), the value to the
left in the current row, and the character `bc` of `b` for this row, emit
the remaining cells of the current row.  Mirrors the inner `for j` loop of
`levenshtein` in `link-fixer.ts`. -/
def levRowAux (bc : Char) : List Char → Nat → List Nat → List Nat
  | [], _, _ => []
  | ac :: arest, left, diag :: up :: prest =>
    let cell := if bc = ac then diag else Nat.min diag (Nat.min left up) + 1
    cell :: levRowAux bc arest cell (up :: prest)
  | _ :: _, _, [] => []
  | _ :: _, _, [_] => []

/-- `levenshtein` from `link-fixer.ts`: full-table dynamic program, row 0 is
`0..|a|`, row `i` starts with `i`. -/
def levenshtein (a b : List Char) : Nat :=
  let row0 := List.range (a.length + 1)
  let final := b.foldl
    (fun (acc : List Nat × Nat) bc =>
      let i := acc.2 + 1
      (i :: levRowAux bc a i acc.1, i))
    (row0, 0)
  final.1.getLastD 0

/-- `pathSegments` from `link-fixer.ts`: pathname (or, for unparseable
input, the raw string) split on `/`, empty segments dropped, lower-cased. -/
def pathSegments (url : String) : List (List Char) :=
  match parseUrlL url.data with
  | some p => ((splitOnChar '/' p.pathname).filter (· ≠ [])).map (·.map Char.toLower)
  | none => ((splitOnChar '/' url.data).filter (· ≠ [])).map (·.map Char.toLower)

/-- `pathSimilarity` from `link-fixer.ts`: weighted combination of the
segment-membership overlap and the edit similarity of the joined paths.
JavaScript float arithmetic is modelled exactly over `ℚ`. -/
def pathSimilarity (urlA urlB : String) : ℚ :=
  let segA := pathSegments urlA
  let segB := pathSegments urlB
  if segA.length = 0 ∧ segB.length = 0 then 1
  else if segA.length = 0 ∨ segB.length = 0 then 0
  else
    let maxLen := Nat.max segA.length segB.length
    let matchCount := (segA.filter (fun s => segB.contains s)).length
    let pathA := List.intercalate ['/'] segA
    let pathB := List.intercalate ['/'] segB
    let maxPathLen := Nat.max pathA.length pathB.length
    let editDistance := levenshtein pathA pathB
    let editSimilarity : ℚ :=
      if 0 < maxPathLen then 1 - (editDistance : ℚ) / (maxPathLen : ℚ) else 1
    let segmentSimilarity : ℚ := (matchCount : ℚ) / (maxLen : ℚ)
    segmentSimilarity * (6/10) + editSimilarity * (4/10)

/-- `getPathname` from `link-fixer.ts`: the parsed pathname, or the raw
string when unparseable. -/
def getPathname (url : String) : String :=
  match parseUrlL url.data with
  | some p => String.mk p.pathname
  | none => url

/-! ## link-fixer.ts: data model and computeFixes -/

/-- `LinkCheckResult` from `types.ts` (fields the fixer and scanner use). -/
structure LinkCheckResult where
  sourcePage : String
  href : String
  resolvedUrl : String
  statusCode : Option Int
  isRedirect : Bool
  finalUrl : Option String
  redirectChain : List String
  error : Option String
deriving DecidableEq, Repr

/-- `LinkFix` from `types.ts`. -/
structure LinkFix where
  originalHref : String
  suggestedHref : String
  confidence : ℚ
  method : String
  sourcePages : List String
deriving DecidableEq, Repr

/-- `RedirectEntry` from `types.ts` (spec names the fields fromPath/toPath). -/
structure RedirectEntry where
  fromPath : String
  toPath : String
  statusCode : Nat
deriving DecidableEq, Repr

/-- `FixOptions` from `link-fixer.ts`; optional fields model `?:`. -/
structure FixOptions where
  minConfidence : Option ℚ := none
  maxSuggestions : Option Nat := none
deriving DecidableEq, Repr

/-- Append `v` to the group of key `k` in an insertion-ordered association
list; models `brokenByUrl.get/push/set` over a JavaScript `Map`. -/
def insertGroup (k v : String) : List (String × List String) → List (String × List String)
  | [] => [(k, [v])]
  | (k', vs) :: rest =>
    if k' = k then (k', vs ++ [v]) :: rest
    else (k', vs) :: insertGroup k v rest

/-- `Map.set` over an insertion-ordered association list: overwrite in
place, or append a new entry. -/
def mapSet (k v : String) : List (String × String) → List (String × String)
  | [] => [(k, v)]
  | (k', v') :: rest =>
    if k' = k then (k, v) :: rest
    else (k', v') :: mapSet k v rest

/-- `Map.get`: first (and only) binding of `k`. -/
def mapGet (k : String) : List (String × String) → Option String
  | [] => none
  | (k', v) :: rest => if k' = k then some v else mapGet k rest

/-- The `brokenByUrl` map built by `computeFixes`: broken results grouped
by `href`, source pages appended in input order (no deduplication). -/
def brokenByUrl (brokenLinks : List LinkCheckResult) : List (String × List String) :=
  brokenLinks.foldl (fun m l => insertGroup l.href l.sourcePage m) []

/-- The `redirectTargets` map built by `computeFixes`: last non-null (and,
by JavaScript truthiness, non-empty) `finalUrl` for each redirected href. -/
def redirectTargets (redirectLinks : List LinkCheckResult) : List (String × String) :=
  redirectLinks.foldl
    (fun m l =>
      match l.finalUrl with
      | some u => if u ≠ "" then mapSet l.href u m else m
      | none => m)
    []

/-- `bestMatch` accumulation: fold over the known-good URLs keeping the
first candidate whose score strictly exceeds the best so far (`score >
(bestMatch?.score ?? 0)`). -/
def bestMatchFor (brokenUrl : String) (knownGoodUrls : List String) :
    Option (String × ℚ) :=
  knownGoodUrls.foldl
    (fun best g =>
      let score := pathSimilarity brokenUrl g
      if score > (match best with | some b => b.2 | none => 0) then some (g, score)
      else best)
    none

/-- Strategy 2 of the per-href loop of `computeFixes`: best fuzzy candidate,
kept when its score is at least `minConfidence`; the method records whether
at least one segment overlaps. -/
def fuzzyFixes (knownGoodUrls : List String) (minConfidence : ℚ)
    (brokenUrl : String) (sourcePages : List String) : List LinkFix :=
  match bestMatchFor brokenUrl knownGoodUrls with
  | some best =>
    if best.2 ≥ minConfidence then
      let brokenSegs := pathSegments brokenUrl
      let matchSegs := pathSegments best.1
      let segOverlap := (brokenSegs.filter (fun s => matchSegs.contains s)).length
      let method := if segOverlap > 0 then "path-similarity" else "fuzzy-match"
      [{ originalHref := brokenUrl, suggestedHref := best.1, confidence := best.2,
         method := method, sourcePages := sourcePages }]
    else []
  | none => []

/-- The body of the per-href loop of `computeFixes`: strategy 1 (truthy
redirect target, fixed confidence 0.95, `continue` on success), falling
through to strategy 2 otherwise. -/
def entryFixes (rt : List (String × String)) (knownGoodUrls : List String)
    (minConfidence : ℚ) (entry : String × List String) : List LinkFix :=
  let brokenUrl := entry.1
  let sourcePages := entry.2
  match mapGet brokenUrl rt with
  | some t =>
    if t ≠ "" ∧ (95 : ℚ)/100 ≥ minConfidence then
      [{ originalHref := brokenUrl, suggestedHref := t, confidence := 95/100,
         method := "redirect-target", sourcePages := sourcePages }]
    else fuzzyFixes knownGoodUrls minConfidence brokenUrl sourcePages
  | none => fuzzyFixes knownGoodUrls minConfidence brokenUrl sourcePages

/-- The `fixes` array of `computeFixes` before the final sort. -/
def computeFixesPre (brokenLinks : List LinkCheckResult) (knownGoodUrls : List String)
    (redirectLinks : List LinkCheckResult) (options : FixOptions) : List LinkFix :=
  let minConfidence := options.minConfidence.getD (4/10)
  let rt := redirectTargets redirectLinks
  (brokenByUrl brokenLinks).flatMap (entryFixes rt knownGoodUrls minConfidence)

/-- Stable insertion (descending by confidence): walk past strictly greater
confidences, insert before the first element of not-greater confidence, so
that among equal confidences earlier input stays earlier.  Extensionally
the ECMAScript stable `sort((a, b) => b.confidence - a.confidence)`. -/
def insertFix (f : LinkFix) : List LinkFix → List LinkFix
  | [] => [f]
  | g :: gs => if g.confidence > f.confidence then g :: insertFix f gs else f :: g :: gs

/-- Stable sort by confidence descending. -/
def sortFixes (l : List LinkFix) : List LinkFix := l.foldr insertFix []

/-- `computeFixes` from `link-fixer.ts`. -/
def computeFixes (brokenLinks : List LinkCheckResult) (knownGoodUrls : List String)
    (redirectLinks : List LinkCheckResult) (options : FixOptions) : List LinkFix :=
  sortFixes (computeFixesPre brokenLinks knownGoodUrls redirectLinks options)

/-- `fixesToRedirects` from `link-fixer.ts`: filter at the confidence
threshold, project both hrefs to their pathname, status 301. -/
def fixesToRedirects (fixes : List LinkFix) (minConfidence : ℚ) : List RedirectEntry :=
  (fixes.filter (fun fix => fix.confidence ≥ minConfidence)).map
    (fun fix =>
      { fromPath := getPathname fix.originalHref,
        toPath := getPathname fix.suggestedHref,
        statusCode := 301 })

/-! ## link-scanner.ts: checkUrl (redirect-following verifier) -/

/-- Outcome of one `fetch(currentUrl, { redirect: "manual" })`: a response
with a status and optional `Location` header, or a thrown error (network
failure / timeout abort). -/
inductive FetchOutcome where
  | resp (status : Nat) (location : Option String)
  | err (msg : String)
deriving DecidableEq, Repr

/-- The record returned by `checkUrl`. -/
structure CheckOutcome where
  statusCode : Option Nat
  finalUrl : Option String
  redirectChain : List String
  error : Option String
deriving DecidableEq, Repr

/-- The `for (let i = 0; i <= maxRedirects; i++)` loop of `checkUrl`,
with the remaining iteration count as fuel (`maxRedirects + 1` at entry):
fuel 0 is loop exit, which reports "Too many redirects"; a thrown fetch is
caught by the outer `catch`.  `resolve loc current` models
`new URL(location, currentUrl).toString()`. -/
def checkUrlLoop (fetch : String → FetchOutcome) (resolve : String → String → String)
    (followRedirects : Bool) : Nat → String → List String → CheckOutcome
  | 0, currentUrl, chain =>
    { statusCode := none, finalUrl := some currentUrl, redirectChain := chain,
      error := some "Too many redirects" }
  | n + 1, currentUrl, chain =>
    match fetch currentUrl with
    | .err msg =>
      { statusCode := none, finalUrl := none, redirectChain := chain,
        error := some msg }
    | .resp status location =>
      if 300 ≤ status ∧ status < 400 ∧ followRedirects = true then
        match location with
        | some loc =>
          checkUrlLoop fetch resolve followRedirects n
            (resolve loc currentUrl) (chain ++ [currentUrl])
        | none =>
          { statusCode := some status,
            finalUrl := if chain ≠ [] then some currentUrl else none,
            redirectChain := chain, error := none }
      else
        { statusCode := some status,
          finalUrl := if chain ≠ [] then some currentUrl else none,
          redirectChain := chain, error := none }

/-- `checkUrl` from `link-scanner.ts`: at most `10` redirect hops when
`followRedirects`, else `0`. -/
def checkUrl (fetch : String → FetchOutcome) (resolve : String → String → String)
    (url : String) (followRedirects : Bool) : CheckOutcome :=
  let maxRedirects := if followRedirects then 10 else 0
  checkUrlLoop fetch resolve followRedirects (maxRedirects + 1) url []

/-! ## link-scanner.ts: asyncPool (bounded-concurrency executor) -/

/-- `asyncPool` from `link-scanner.ts`, with a unit of work that either
resolves (`Except.ok`) or rejects (`Except.error`).  The concurrency limit
only gates scheduling (`Promise.race` when the in-flight set is full); for
deterministic units of work it does not change which results are pushed,
so the model collapses the schedule: results are pushed as units complete,
and a rejected unit propagates out of the terminal `await Promise.all`,
rejecting the whole pool without producing a result list. -/
def asyncPool {T R : Type} (items : List T) (concurrency : Nat)
    (fn : T → Except String R) : Except String (List R) :=
  let _ := concurrency
  items.foldlM (fun acc item => do
    let r ← fn item
    pure (acc ++ [r])) []

/-! ## link-scanner.ts: the crawl loop of scanSite -/

/-- Mutable state of the phase-1 crawl loop: the `visited` set (as an
insertion-ordered list), the `toVisit` queue, and the `allLinks` map from
href to its set of source pages (insertion-ordered, duplicates skipped). -/
structure CrawlState where
  visited : List String
  toVisit : List String
  allLinks : List (String × List String)
deriving DecidableEq, Repr

/-- `allLinks.get(link).add(url)` with `Map`/`Set` insertion-order
semantics. -/
def recordLink (link src : String) : List (String × List String) → List (String × List String)
  | [] => [(link, [src])]
  | (k, srcs) :: rest =>
    if k = link then (k, if src ∈ srcs then srcs else srcs ++ [src]) :: rest
    else (k, srcs) :: recordLink link src rest

/-- The `for (const link of links)` body of the crawl loop: record the
edge, and enqueue the link if it is neither visited nor already queued. -/
def processLinks (url : String) (links : List String) (st : CrawlState) : CrawlState :=
  links.foldl
    (fun st link =>
      let st' : CrawlState := { st with allLinks := recordLink link url st.allLinks }
      if link ∉ st'.visited ∧ link ∉ st'.toVisit then
        { st' with toVisit := st'.toVisit ++ [link] }
      else st')
    st

/-- One iteration of the `while (toVisit.length > 0 && visited.size <
maxPages)` loop of `scanSite`.  `render url` models `page.goto` +
`extractLinks` and returns the normalized same-origin hrefs, or `none` when
navigation failed (the `catch` that skips the page).  Returns `none` when
the loop guard fails. -/
def crawlStep (render : String → Option (List String)) (excluded : String → Bool)
    (maxPages : Nat) (st : CrawlState) : Option CrawlState :=
  match st.toVisit with
  | [] => none
  | url :: rest =>
    if maxPages ≤ st.visited.length then none
    else
      let st1 : CrawlState := { st with toVisit := rest }
      if url ∈ st1.visited then some st1
      else if excluded url then some st1
      else
        let st2 : CrawlState := { st1 with visited := st1.visited ++ [url] }
        match render url with
        | none => some st2
        | some links => some (processLinks url links st2)

/-- Run `n` iterations of the crawl loop (stopping early when the guard
fails). -/
def crawlSteps (render : String → Option (List String)) (excluded : String → Bool)
    (maxPages : Nat) : Nat → CrawlState → CrawlState
  | 0, st => st
  | n + 1, st =>
    match crawlStep render excluded maxPages st with
    | none => st
    | some st' => crawlSteps render excluded maxPages n st'

/-- Initial crawl state: the frontier seeded with the normalized root. -/
def crawlInit (rootUrl : String) : CrawlState :=
  { visited := [], toVisit := [normalizeUrl rootUrl], allLinks := [] }

/-! ## Concrete fixtures used in witnesses and counterexamples -/

/-- A broken-link result: href `/missing` referenced from page `/p`. -/
def cxBroken : LinkCheckResult :=
  { sourcePage := "https://site.example/p", href := "https://site.example/missing",
    resolvedUrl := "https://site.example/missing", statusCode := some 404,
    isRedirect := false, finalUrl := none, redirectChain := [], error := none }

/-- A redirected result giving `/missing` the final URL `/found`. -/
def cxRed : LinkCheckResult :=
  { sourcePage := "", href := "https://site.example/missing",
    resolvedUrl := "https://site.example/missing", statusCode := some 301,
    isRedirect := true, finalUrl := some "https://site.example/found",
    redirectChain := ["https://site.example/missing"], error := none }

/-- A broken-link result: href `/a` referenced from `/src`. -/
def wBroken : LinkCheckResult :=
  { sourcePage := "https://w.example/src", href := "https://w.example/a",
    resolvedUrl := "https://w.example/a", statusCode := some 404,
    isRedirect := false, finalUrl := none, redirectChain := [], error := none }

/-- A redirected result giving `/a` the final URL `/b`. -/
def wRed : LinkCheckResult :=
  { sourcePage := "", href := "https://w.example/a",
    resolvedUrl := "https://w.example/a", statusCode := some 301,
    isRedirect := true, finalUrl := some "https://w.example/b",
    redirectChain := [], error := none }

/-- The fix expected for `wBroken` + `wRed`. -/
def wFix : LinkFix :=
  { originalHref := "https://w.example/a", suggestedHref := "https://w.example/b",
    confidence := 95/100, method := "redirect-target",
    sourcePages := ["https://w.example/src"] }

/-- A broken-link result: href `/broken` referenced from `/src`. -/
def cwBroken : LinkCheckResult :=
  { sourcePage := "https://cw.example/src", href := "https://cw.example/broken",
    resolvedUrl := "https://cw.example/broken", statusCode := some 404,
    isRedirect := false, finalUrl := none, redirectChain := [], error := none }

/-- A redirected result giving `/broken` the final URL `/fixed`. -/
def cwRed : LinkCheckResult :=
  { sourcePage := "", href := "https://cw.example/broken",
    resolvedUrl := "https://cw.example/broken", statusCode := some 308,
    isRedirect := true, finalUrl := some "https://cw.example/fixed",
    redirectChain := [], error := none }

/-- The broken-link result of the `docss/guide` example. -/
def c7Broken : LinkCheckResult :=
  { sourcePage := "https://example.com/page", href := "https://example.com/docss/guide",
    resolvedUrl := "https://example.com/docss/guide", statusCode := some 404,
    isRedirect := false, finalUrl := none, redirectChain := [], error := none }

/-- A fix at full confidence, for exercising `fixesToRedirects`. -/
def wrFix : LinkFix :=
  { originalHref := "https://wit.example/old", suggestedHref := "https://wit.example/new",
    confidence := 1, method := "path-similarity", sourcePages := ["https://wit.example/src"] }

/-- The parse of `https://wit.example/zig?q`. -/
def witP : URLRec :=
  { scheme := ['h','t','t','p','s'], host := "wit.example".data,
    pathname := "/zig".data, search := some ['q'], hash := none }

/-- Root page of the concrete crawl example. -/
def c9root : String := "https://c9.example/"

/-- A page linked from the root and crawled after the excluded URL. -/
def c9b : String := "https://c9.example/b"

/-- The excluded URL of the concrete crawl example. -/
def c9x : String := "https://c9.example/x"

/-- Rendering oracle: the root links to `c9x` and `c9b`; `c9b` links to
`c9x` again; everything else fails to render. -/
def c9render : String → Option (List String) :=
  fun u => if u = c9root then some [c9x, c9b]
    else if u = c9b then some [c9x] else none

/-- Exclusion predicate matching exactly `c9x`. -/
def c9excluded : String → Bool := fun u => u = c9x

/-! ## Specification predicates -/

/-- Well-formedness of a parsed URL record, as established by `parseUrlL`:
non-empty scheme of scheme characters, non-empty host free of `/ ? #`, a
`/`-rooted path free of `? #`, and a query free of `#`. -/
def WfURL (p : URLRec) : Prop :=
  p.scheme ≠ [] ∧ p.scheme.all isSchemeChar = true ∧
  p.host ≠ [] ∧ '/' ∉ p.host ∧ '?' ∉ p.host ∧ '#' ∉ p.host ∧
  (∃ pr, p.pathname = '/' :: pr) ∧ '?' ∉ p.pathname ∧ '#' ∉ p.pathname ∧
  (∀ q, p.search = some q → '#' ∉ q)

/-- Invariant of the `brokenByUrl` grouping fold: after processing the
prefix `pref` of the broken results, keys are distinct, each entry holds
exactly the source pages of the results with its href (in input order,
duplicates kept), and every processed href has an entry. -/
def GroupInv (m : List (String × List String)) (pref : List LinkCheckResult) : Prop :=
  (m.map Prod.fst).Nodup ∧
  (∀ e ∈ m, e.2 = (pref.filter (fun r => decide (r.href = e.1))).map LinkCheckResult.sourcePage) ∧
  (∀ r ∈ pref, r.href ∈ m.map Prod.fst)

/-! ## Lemmas: the stable sort of computeFixes -/

lemma insertFix_perm (f : LinkFix) (l : List LinkFix) :
    List.Perm (insertFix f l) (f :: l) := by
  induction l with
  | nil => simp [insertFix]
  | cons g gs ih =>
    by_cases hgt : g.confidence > f.confidence
    · simp only [insertFix, if_pos hgt]
      exact (List.Perm.cons g ih).trans (List.Perm.swap f g gs)
    · simp [insertFix, if_neg hgt]

lemma sortFixes_perm (l : List LinkFix) : List.Perm (sortFixes l) l := by
  induction l with
  | nil => simp [sortFixes]
  | cons x xs ih =>
    have : sortFixes (x :: xs) = insertFix x (sortFixes xs) := rfl
    rw [this]
    exact (insertFix_perm x (sortFixes xs)).trans (List.Perm.cons x ih)

lemma insertFix_pairwise (f : LinkFix) (l : List LinkFix)
    (h : l.Pairwise (fun x y => y.confidence ≤ x.confidence)) :
    (insertFix f l).Pairwise (fun x y => y.confidence ≤ x.confidence) := by
  induction l with
  | nil => simp [insertFix]
  | cons g gs ih =>
    rcases List.pairwise_cons.mp h with ⟨hg, hgs⟩
    by_cases hgt : g.confidence > f.confidence
    · simp only [insertFix, if_pos hgt]
      refine List.pairwise_cons.mpr ⟨?_, ih hgs⟩
      intro y hy
      rcases List.mem_cons.mp ((insertFix_perm f gs).mem_iff.mp hy) with rfl | hy'
      · exact le_of_lt hgt
      · exact hg y hy'
    · simp only [insertFix, if_neg hgt]
      refine List.pairwise_cons.mpr ⟨?_, h⟩
      intro y hy
      have hgf : g.confidence ≤ f.confidence := le_of_not_lt hgt
      rcases List.mem_cons.mp hy with rfl | hy'
      · exact hgf
      · exact le_trans (hg y hy') hgf

lemma sortFixes_pairwise (l : List LinkFix) :
    (sortFixes l).Pairwise (fun x y => y.confidence ≤ x.confidence) := by
  induction l with
  | nil => simp [sortFixes]
  | cons x xs ih => exact insertFix_pairwise x (sortFixes xs) ih

lemma filter_insertFix (c : ℚ) (f : LinkFix) (l : List LinkFix) :
    (insertFix f l).filter (fun x => decide (x.confidence = c)) =
      if f.confidence = c then
        f :: l.filter (fun x => decide (x.confidence = c))
      else l.filter (fun x => decide (x.confidence = c)) := by
  induction l with
  | nil => by_cases hfc : f.confidence = c <;> simp [insertFix, hfc]
  | cons g gs ih =>
    by_cases hgt : g.confidence > f.confidence
    · simp only [insertFix, if_pos hgt]
      by_cases hfc : f.confidence = c
      · have hgc : ¬ g.confidence = c := by
          rw [← hfc]; exact ne_of_gt hgt
        simp [List.filter_cons, hgc, ih, hfc]
      · simp [List.filter_cons, ih, hfc]
    · simp only [insertFix, if_neg hgt]
      by_cases hfc : f.confidence = c <;> simp [List.filter_cons, hfc]

lemma filter_sortFixes (c : ℚ) (l : List LinkFix) :
    (sortFixes l).filter (fun x => decide (x.confidence = c)) =
      l.filter (fun x => decide (x.confidence = c)) := by
  induction l with
  | nil => simp [sortFixes]
  | cons x xs ih =>
    have hs : sortFixes (x :: xs) = insertFix x (sortFixes xs) := rfl
    rw [hs, filter_insertFix]
    by_cases hxc : x.confidence = c <;> simp [List.filter_cons, hxc, ih]

/-! ## Lemmas: checkUrl redirect loop -/

lemma checkUrlLoop_allRedirect (fetch : String → FetchOutcome)
    (resolve : String → String → String) (n : Nat) (urls : Nat → String)
    (chain : List String)
    (h : ∀ i, i < n → ∃ s l, fetch (urls i) = FetchOutcome.resp s (some l) ∧
      300 ≤ s ∧ s < 400 ∧ resolve l (urls i) = urls (i + 1)) :
    (checkUrlLoop fetch resolve true n (urls 0) chain).statusCode = none ∧
    (checkUrlLoop fetch resolve true n (urls 0) chain).error = some "Too many redirects" := by
  induction n generalizing urls chain with
  | zero => simp [checkUrlLoop]
  | succ n ih =>
    obtain ⟨s, l, hf, h3, h4, hres⟩ := h 0 (Nat.succ_pos n)
    have step := ih (fun i => urls (i + 1)) (chain ++ [urls 0])
      (fun i hi => h (i + 1) (by omega))
    simp only [checkUrlLoop, hf]
    rw [if_pos (by exact ⟨h3, h4, trivial⟩), hres]
    exact step

/-! ## Lemmas: asyncPool -/

lemma asyncPool_aux {T R : Type} (g : T → R) (items : List T) (acc : List R) :
    (items.foldlM (fun acc item => do
        let r ← (fun i => (Except.ok (g i) : Except String R)) item
        pure (acc ++ [r])) acc) = Except.ok (acc ++ items.map g) := by
  induction items generalizing acc with
  | nil => simp [List.foldlM_nil]; rfl
  | cons x xs ih =>
    simp only [List.foldlM_cons, List.map_cons]
    show (Except.ok (acc ++ [g x]) : Except String (List R)).bind _ = _
    rw [show ∀ (a : List R) k, (Except.ok a : Except String (List R)).bind k = k a from
      fun a k => rfl]
    rw [ih]
    simp

/-! ## Lemmas: the brokenByUrl grouping -/

lemma insertGroup_keys_of_mem {k : String} (v : String)
    {m : List (String × List String)} (h : k ∈ m.map Prod.fst) :
    (insertGroup k v m).map Prod.fst = m.map Prod.fst := by
  induction m with
  | nil => simp at h
  | cons e rest ih =>
    obtain ⟨k', vs⟩ := e
    by_cases hk : k' = k
    · subst hk; simp [insertGroup]
    · have h' : k ∈ rest.map Prod.fst := by
        rcases List.mem_cons.mp h with h1 | h1
        · exact absurd h1.symm hk
        · exact h1
      simp [insertGroup, hk, ih h']

lemma insertGroup_keys_of_not_mem {k : String} (v : String)
    {m : List (String × List String)} (h : k ∉ m.map Prod.fst) :
    (insertGroup k v m).map Prod.fst = m.map Prod.fst ++ [k] := by
  induction m with
  | nil => simp [insertGroup]
  | cons e rest ih =>
    obtain ⟨k', vs⟩ := e
    by_cases hk : k' = k
    · exact absurd (by simp [hk]) h
    · have h' : k ∉ rest.map Prod.fst := fun hc => h (by simp [hc])
      simp [insertGroup, hk, ih h']

lemma mem_keys_insertGroup {a k v : String} {m : List (String × List String)}
    (h : a ∈ m.map Prod.fst ∨ a = k) :
    a ∈ (insertGroup k v m).map Prod.fst := by
  by_cases hk : k ∈ m.map Prod.fst
  · rw [insertGroup_keys_of_mem v hk]
    rcases h with h | rfl
    · exact h
    · exact hk
  · rw [insertGroup_keys_of_not_mem v hk]
    rcases h with h | rfl
    · exact List.mem_append_left _ h
    · exact List.mem_append_right _ (by simp)

lemma insertGroup_mem_ne {e : String × List String} {k v : String}
    {m : List (String × List String)}
    (he : e ∈ insertGroup k v m) (hne : e.1 ≠ k) : e ∈ m := by
  induction m with
  | nil =>
    simp [insertGroup] at he
    subst he; exact absurd rfl hne
  | cons e' rest ih =>
    obtain ⟨k', vs⟩ := e'
    by_cases hk : k' = k
    · subst hk
      simp only [insertGroup, if_pos rfl] at he
      rcases List.mem_cons.mp he with rfl | h1
      · exact absurd rfl hne
      · exact List.mem_cons_of_mem _ h1
    · simp only [insertGroup, if_neg hk] at he
      rcases List.mem_cons.mp he with rfl | h1
      · exact List.mem_cons_self _ _
      · exact List.mem_cons_of_mem _ (ih h1)

lemma insertGroup_mem_eq {e : String × List String} {k v : String}
    {m : List (String × List String)}
    (hnd : (m.map Prod.fst).Nodup) (he : e ∈ insertGroup k v m) (heq : e.1 = k) :
    (k ∉ m.map Prod.fst ∧ e = (k, [v])) ∨
    (∃ vs, (k, vs) ∈ m ∧ e = (k, vs ++ [v])) := by
  induction m with
  | nil =>
    left
    simp [insertGroup] at he
    exact ⟨by simp, he⟩
  | cons e' rest ih =>
    obtain ⟨k', vs⟩ := e'
    rcases List.pairwise_cons.mp hnd with ⟨hk'_rest, hnd'⟩
    by_cases hk : k' = k
    · subst hk
      simp only [insertGroup, if_pos rfl] at he
      rcases List.mem_cons.mp he with rfl | h1
      · exact Or.inr ⟨vs, List.mem_cons_self _ _, rfl⟩
      · exfalso
        have : e.1 ∈ rest.map Prod.fst := List.mem_map.mpr ⟨e, h1, rfl⟩
        rw [heq] at this
        exact hk'_rest k' (by simpa using this) rfl
    · simp only [insertGroup, if_neg hk] at he
      rcases List.mem_cons.mp he with rfl | h1
      · exact absurd heq hk
      · rcases ih hnd' h1 with ⟨hnm, hev⟩ | ⟨vs0, hm, hev⟩
        · left
          refine ⟨?_, hev⟩
          intro hc
          rw [List.map_cons, List.mem_cons] at hc
          rcases hc with h2 | h2
          · exact hk h2.symm
          · exact hnm h2
        · exact Or.inr ⟨vs0, List.mem_cons_of_mem _ hm, hev⟩

lemma groupInv_step (r : LinkCheckResult) (m : List (String × List String))
    (pref : List LinkCheckResult) (h : GroupInv m pref) :
    GroupInv (insertGroup r.href r.sourcePage m) (pref ++ [r]) := by
  obtain ⟨hnd, hval, hcomp⟩ := h
  refine ⟨?_, ?_, ?_⟩
  · by_cases hk : r.href ∈ m.map Prod.fst
    · rw [insertGroup_keys_of_mem _ hk]; exact hnd
    · rw [insertGroup_keys_of_not_mem _ hk]
      refine List.Nodup.append hnd (by simp) ?_
      intro a ha hb
      rw [List.mem_singleton.mp hb] at ha
      exact hk ha
  · intro e he
    by_cases heq : e.1 = r.href
    · rcases insertGroup_mem_eq hnd he heq with ⟨hnm, rfl⟩ | ⟨vs, hm, rfl⟩
      · have hnone : pref.filter (fun x => decide (x.href = (r.href, [r.sourcePage]).1)) = [] := by
          rw [List.filter_eq_nil_iff]
          intro a ha
          simp only [decide_eq_true_eq]
          intro hc
          exact hnm (by rw [← hc]; exact hcomp a ha)
        simp only [List.filter_append, hnone]
        simp
      · have hv := hval (r.href, vs) hm
        simp only [List.filter_append]
        simp only at hv ⊢
        rw [hv]
        simp [List.filter_cons]
    · have he' : e ∈ m := insertGroup_mem_ne he heq
      have hv := hval e he'
      simp only [List.filter_append]
      have hdec : (decide (r.href = e.1)) = false := by
        simp only [decide_eq_false_iff_not]
        intro hc
        exact heq hc.symm
      have hr : List.filter (fun x => decide (x.href = e.1)) [r] = [] := by
        simp [List.filter_cons, hdec]
      rw [hr, List.append_nil]
      exact hv
  · intro x hx
    rcases List.mem_append.mp hx with hx | hx
    · exact mem_keys_insertGroup (Or.inl (hcomp x hx))
    · rw [List.mem_singleton.mp hx]
      exact mem_keys_insertGroup (Or.inr rfl)

lemma groupInv_foldl (l : List LinkCheckResult) :
    ∀ (pref : List LinkCheckResult) (m : List (String × List String)),
      GroupInv m pref →
      GroupInv (l.foldl (fun m r => insertGroup r.href r.sourcePage m) m) (pref ++ l) := by
  induction l with
  | nil => intro pref m h; simpa using h
  | cons r l' ih =>
    intro pref m h
    have step := groupInv_step r m pref h
    have := ih (pref ++ [r]) _ step
    simpa [List.append_assoc] using this

lemma brokenByUrl_inv (l : List LinkCheckResult) : GroupInv (brokenByUrl l) l := by
  have h0 : GroupInv [] [] := ⟨List.nodup_nil, by simp, by simp⟩
  have := groupInv_foldl l [] [] h0
  simpa [brokenByUrl] using this

/-! ## Lemmas: the redirectTargets map -/

lemma mapGet_mem {k v : String} : ∀ {m : List (String × String)},
    mapGet k m = some v → (k, v) ∈ m := by
  intro m
  induction m with
  | nil => intro h; simp [mapGet] at h
  | cons e rest ih =>
    obtain ⟨k', v'⟩ := e
    intro h
    by_cases hk : k' = k
    · subst hk
      have hv : mapGet k' ((k', v') :: rest) = some v' := by simp [mapGet]
      rw [hv, Option.some.injEq] at h
      subst h
      exact List.mem_cons_self _ _
    · simp only [mapGet, if_neg hk] at h
      exact List.mem_cons_of_mem _ (ih h)

lemma mem_mapSet {e : String × String} {k v : String} :
    ∀ {m : List (String × String)}, e ∈ mapSet k v m → e = (k, v) ∨ e ∈ m := by
  intro m
  induction m with
  | nil => intro h; simp [mapSet] at h; exact Or.inl h
  | cons e' rest ih =>
    obtain ⟨k', v'⟩ := e'
    intro h
    by_cases hk : k' = k
    · subst hk
      simp only [mapSet, if_pos rfl] at h
      rcases List.mem_cons.mp h with rfl | h1
      · exact Or.inl rfl
      · exact Or.inr (List.mem_cons_of_mem _ h1)
    · simp only [mapSet, if_neg hk] at h
      rcases List.mem_cons.mp h with rfl | h1
      · exact Or.inr (List.mem_cons_self _ _)
      · rcases ih h1 with h2 | h2
        · exact Or.inl h2
        · exact Or.inr (List.mem_cons_of_mem _ h2)

lemma redirectTargets_vals_ne (rl : List LinkCheckResult) :
    ∀ e ∈ redirectTargets rl, e.2 ≠ "" := by
  have aux : ∀ (l : List LinkCheckResult) (m : List (String × String)),
      (∀ e ∈ m, e.2 ≠ "") →
      ∀ e ∈ l.foldl (fun m l =>
          match l.finalUrl with
          | some u => if u ≠ "" then mapSet l.href u m else m
          | none => m) m, e.2 ≠ "" := by
    intro l
    induction l with
    | nil => intro m hm; simpa using hm
    | cons x xs ih =>
      intro m hm
      simp only [List.foldl_cons]
      apply ih
      cases hfu : x.finalUrl with
      | none => simpa [hfu] using hm
      | some u =>
        by_cases hu : u ≠ ""
        · simp only [hfu, if_pos hu]
          intro e he
          rcases mem_mapSet he with rfl | he'
          · exact hu
          · exact hm e he'
        · simpa [hfu, hu] using hm
  exact aux rl [] (by simp)

lemma redirectTargets_get_ne {rl : List LinkCheckResult} {h t : String}
    (hg : mapGet h (redirectTargets rl) = some t) : t ≠ "" :=
  redirectTargets_vals_ne rl (h, t) (mapGet_mem hg)

/-! ## Lemmas: entryFixes -/

lemma fuzzyFixes_fields (kg : List String) (mc : ℚ) (u : String) (sp : List String) :
    ∀ f ∈ fuzzyFixes kg mc u sp, f.originalHref = u ∧ f.sourcePages = sp := by
  intro f hf
  unfold fuzzyFixes at hf
  split at hf
  · split at hf
    · simp only [List.mem_singleton] at hf
      subst hf
      exact ⟨rfl, rfl⟩
    · simp at hf
  · simp at hf

lemma fuzzyFixes_len (kg : List String) (mc : ℚ) (u : String) (sp : List String) :
    (fuzzyFixes kg mc u sp).length ≤ 1 := by
  unfold fuzzyFixes
  split
  · split <;> simp
  · simp

lemma entryFixes_fields (rt : List (String × String)) (kg : List String) (mc : ℚ)
    (e : String × List String) :
    ∀ f ∈ entryFixes rt kg mc e, f.originalHref = e.1 ∧ f.sourcePages = e.2 := by
  intro f hf
  simp only [entryFixes] at hf
  split at hf
  · split at hf
    · simp only [List.mem_singleton] at hf
      subst hf
      exact ⟨rfl, rfl⟩
    · exact fuzzyFixes_fields _ _ _ _ f hf
  · exact fuzzyFixes_fields _ _ _ _ f hf

lemma entryFixes_len (rt : List (String × String)) (kg : List String) (mc : ℚ)
    (e : String × List String) : (entryFixes rt kg mc e).length ≤ 1 := by
  simp only [entryFixes]
  split
  · split
    · simp
    · exact fuzzyFixes_len _ _ _ _
  · exact fuzzyFixes_len _ _ _ _

/-! ## Lemmas: at most one fix per href, and per-href filtering -/

lemma flatMap_countP_zero (rt : List (String × String)) (kg : List String) (mc : ℚ)
    (entries : List (String × List String)) (h' : String)
    (h : h' ∉ entries.map Prod.fst) :
    (entries.flatMap (entryFixes rt kg mc)).countP
      (fun f => decide (f.originalHref = h')) = 0 := by
  rw [List.countP_eq_zero]
  intro f hf
  obtain ⟨e, he, hfe⟩ := List.mem_flatMap.mp hf
  have := (entryFixes_fields rt kg mc e f hfe).1
  simp only [decide_eq_true_eq]
  intro hc
  exact h (List.mem_map.mpr ⟨e, he, by rw [← this, hc]⟩)

lemma flatMap_countP_le_one (rt : List (String × String)) (kg : List String) (mc : ℚ)
    (entries : List (String × List String)) (h' : String)
    (hnd : (entries.map Prod.fst).Nodup) :
    (entries.flatMap (entryFixes rt kg mc)).countP
      (fun f => decide (f.originalHref = h')) ≤ 1 := by
  induction entries with
  | nil => simp
  | cons e rest ih =>
    rcases List.pairwise_cons.mp hnd with ⟨hhead, htail⟩
    rw [List.flatMap_cons, List.countP_append]
    by_cases he : e.1 = h'
    · have hrest : (rest.flatMap (entryFixes rt kg mc)).countP
          (fun f => decide (f.originalHref = h')) = 0 := by
        apply flatMap_countP_zero
        intro hc
        obtain ⟨e', he', hee⟩ := List.mem_map.mp hc
        exact hhead e'.1 (List.mem_map.mpr ⟨e', he', rfl⟩) (by rw [hee, he])
      rw [hrest]
      have : (entryFixes rt kg mc e).countP
          (fun f => decide (f.originalHref = h')) ≤ (entryFixes rt kg mc e).length :=
        List.countP_le_length _
      have hlen := entryFixes_len rt kg mc e
      omega
    · have hzero : (entryFixes rt kg mc e).countP
          (fun f => decide (f.originalHref = h')) = 0 := by
        rw [List.countP_eq_zero]
        intro f hf
        have := (entryFixes_fields rt kg mc e f hf).1
        simp only [decide_eq_true_eq]
        intro hc
        exact he (by rw [← this, hc])
      rw [hzero]
      simpa using ih htail

lemma computeFixesPre_eq (b : List LinkCheckResult) (kg : List String)
    (r : List LinkCheckResult) (o : FixOptions) :
    computeFixesPre b kg r o =
      (brokenByUrl b).flatMap
        (entryFixes (redirectTargets r) kg (o.minConfidence.getD (4/10))) := rfl

lemma computeFixes_countP_le_one (b : List LinkCheckResult) (kg : List String)
    (r : List LinkCheckResult) (o : FixOptions) (h' : String) :
    (computeFixes b kg r o).countP (fun f => decide (f.originalHref = h')) ≤ 1 := by
  have hperm := sortFixes_perm (computeFixesPre b kg r o)
  rw [computeFixes, hperm.countP_eq, computeFixesPre_eq]
  exact flatMap_countP_le_one _ _ _ _ _ (brokenByUrl_inv b).1

lemma computeFixes_sourcePages (b : List LinkCheckResult) (kg : List String)
    (r : List LinkCheckResult) (o : FixOptions) :
    ∀ f ∈ computeFixes b kg r o,
      f.sourcePages = (b.filter (fun res => decide (res.href = f.originalHref))).map
        LinkCheckResult.sourcePage := by
  intro f hf
  have hf' : f ∈ computeFixesPre b kg r o :=
    (sortFixes_perm (computeFixesPre b kg r o)).mem_iff.mp hf
  rw [computeFixesPre_eq] at hf'
  obtain ⟨e, he, hfe⟩ := List.mem_flatMap.mp hf'
  obtain ⟨ho, hs⟩ := entryFixes_fields _ _ _ e f hfe
  have hval := (brokenByUrl_inv b).2.1 e he
  rw [hs, hval, ho]

lemma flatMap_filter_nil (rt : List (String × String)) (kg : List String) (mc : ℚ)
    (entries : List (String × List String)) (h' : String)
    (h : h' ∉ entries.map Prod.fst) :
    (entries.flatMap (entryFixes rt kg mc)).filter
      (fun f => decide (f.originalHref = h')) = [] := by
  rw [List.filter_eq_nil_iff]
  intro f hf
  obtain ⟨e, he, hfe⟩ := List.mem_flatMap.mp hf
  have hfield := (entryFixes_fields rt kg mc e f hfe).1
  simp only [decide_eq_true_eq]
  intro hc
  exact h (List.mem_map.mpr ⟨e, he, by rw [← hfield, hc]⟩)

lemma flatMap_filter_key (rt : List (String × String)) (kg : List String) (mc : ℚ)
    (entries : List (String × List String)) (h' : String) (vs : List String)
    (hnd : (entries.map Prod.fst).Nodup) (hin : (h', vs) ∈ entries) :
    (entries.flatMap (entryFixes rt kg mc)).filter
      (fun f => decide (f.originalHref = h')) = entryFixes rt kg mc (h', vs) := by
  induction entries with
  | nil => simp at hin
  | cons e rest ih =>
    rcases List.pairwise_cons.mp hnd with ⟨hhead, htail⟩
    rw [List.flatMap_cons, List.filter_append]
    rcases List.mem_cons.mp hin with rfl | hin'
    · have hself : (entryFixes rt kg mc (h', vs)).filter
          (fun f => decide (f.originalHref = h')) = entryFixes rt kg mc (h', vs) := by
        rw [List.filter_eq_self]
        intro f hf
        have := (entryFixes_fields rt kg mc (h', vs) f hf).1
        simpa using this
      have hrest : (rest.flatMap (entryFixes rt kg mc)).filter
          (fun f => decide (f.originalHref = h')) = [] := by
        apply flatMap_filter_nil
        intro hc
        obtain ⟨e', he', hee⟩ := List.mem_map.mp hc
        exact hhead e'.1 (List.mem_map.mpr ⟨e', he', rfl⟩) hee.symm
      rw [hself, hrest, List.append_nil]
    · have hne : e.1 ≠ h' := by
        intro hc
        have : h' ∈ rest.map Prod.fst :=
          List.mem_map.mpr ⟨(h', vs), hin', rfl⟩
        exact hhead h' this hc
      have hzero : (entryFixes rt kg mc e).filter
          (fun f => decide (f.originalHref = h')) = [] := by
        rw [List.filter_eq_nil_iff]
        intro f hf
        have := (entryFixes_fields rt kg mc e f hf).1
        simp only [decide_eq_true_eq]
        intro hc
        exact hne (by rw [← this, hc])
      rw [hzero, List.nil_append]
      exact ih htail hin'

lemma brokenByUrl_entry_exists {b : List LinkCheckResult} {h' : String}
    (hb : h' ∈ b.map LinkCheckResult.href) :
    ∃ vs, (h', vs) ∈ brokenByUrl b ∧
      vs = (b.filter (fun r => decide (r.href = h'))).map LinkCheckResult.sourcePage := by
  obtain ⟨r, hr, hrh⟩ := List.mem_map.mp hb
  have hkey := (brokenByUrl_inv b).2.2 r hr
  rw [hrh] at hkey
  obtain ⟨e, he, hee⟩ := List.mem_map.mp hkey
  obtain ⟨k, vs⟩ := e
  simp only at hee
  refine ⟨vs, ?_, ?_⟩
  · rw [← hee]; exact he
  · have hval := (brokenByUrl_inv b).2.1 (k, vs) he
    simp only at hval
    rw [hee] at hval
    exact hval

lemma entryFixes_redirect {rt : List (String × String)} (kg : List String) {mc : ℚ}
    {h' t : String} (vs : List String)
    (hrt : mapGet h' rt = some t) (ht : t ≠ "") (hmc : mc ≤ 95/100) :
    entryFixes rt kg mc (h', vs) =
      [{ originalHref := h', suggestedHref := t, confidence := 95/100,
         method := "redirect-target", sourcePages := vs }] := by
  simp only [entryFixes, hrt]
  rw [if_pos ⟨ht, hmc⟩]

/-! ## Claim theorems: C1, C2, C6, C10 -/

/-- C1 (amended): for every input, `computeFixes` produces at most one
`FixSuggestion` per broken href, and that suggestion's `sourcePages` lists
the `sourcePage` of every input result with that href, in order of
appearance — but concatenated without deduplication (the original claim's
"deduplicated" fails; see the counterexample). -/
theorem computeFixes_groupsByHref (b : List LinkCheckResult) (kg : List String)
    (r : List LinkCheckResult) (o : FixOptions) :
    (∀ h' : String,
      (computeFixes b kg r o).countP (fun f => decide (f.originalHref = h')) ≤ 1) ∧
    (∀ f ∈ computeFixes b kg r o,
      f.sourcePages = (b.filter (fun res => decide (res.href = f.originalHref))).map
        LinkCheckResult.sourcePage) :=
  ⟨fun h' => computeFixes_countP_le_one b kg r o h',
   computeFixes_sourcePages b kg r o⟩

/-- C2: a broken href that is a key of the redirect-target map, with
`minConfidence ≤ 0.95`, yields exactly one suggestion for that href: the
redirect target, confidence exactly 0.95, method `"redirect-target"`,
regardless of the known-good candidates. -/
theorem computeFixes_redirectTargetWins (b : List LinkCheckResult) (kg : List String)
    (r : List LinkCheckResult) (o : FixOptions) (h' t : String)
    (hb : h' ∈ b.map LinkCheckResult.href)
    (hrt : mapGet h' (redirectTargets r) = some t)
    (hmc : o.minConfidence.getD (4/10) ≤ 95/100) :
    (computeFixes b kg r o).filter (fun f => decide (f.originalHref = h')) =
      [{ originalHref := h', suggestedHref := t, confidence := 95/100,
         method := "redirect-target",
         sourcePages := (b.filter (fun res => decide (res.href = h'))).map
           LinkCheckResult.sourcePage }] := by
  obtain ⟨vs, hin, hvs⟩ := brokenByUrl_entry_exists hb
  have ht : t ≠ "" := redirectTargets_get_ne hrt
  have hpre : (computeFixesPre b kg r o).filter (fun f => decide (f.originalHref = h')) =
      entryFixes (redirectTargets r) kg (o.minConfidence.getD (4/10)) (h', vs) := by
    rw [computeFixesPre_eq]
    exact flatMap_filter_key _ _ _ _ _ _ (brokenByUrl_inv b).1 hin
  have hent : entryFixes (redirectTargets r) kg (o.minConfidence.getD (4/10)) (h', vs) =
      [{ originalHref := h', suggestedHref := t, confidence := 95/100,
         method := "redirect-target", sourcePages := vs }] :=
    entryFixes_redirect kg vs hrt ht hmc
  have hperm : List.Perm
      ((computeFixes b kg r o).filter (fun f => decide (f.originalHref = h')))
      ((computeFixesPre b kg r o).filter (fun f => decide (f.originalHref = h'))) := by
    rw [computeFixes]
    exact (sortFixes_perm _).filter _
  rw [hpre, hent] at hperm
  have heq := List.Perm.eq_singleton hperm
  rw [heq, hvs]

/-- C6: the output of `computeFixes` is sorted non-increasingly by
confidence, and the sort is stable: for every confidence value the
equal-confidence entries appear exactly in the order of the pre-sort list,
which follows the href-grouping order. -/
theorem computeFixes_sortedStable (b : List LinkCheckResult) (kg : List String)
    (r : List LinkCheckResult) (o : FixOptions) :
    (computeFixes b kg r o).Pairwise (fun x y => y.confidence ≤ x.confidence) ∧
    (∀ c : ℚ, (computeFixes b kg r o).filter (fun f => decide (f.confidence = c)) =
      (computeFixesPre b kg r o).filter (fun f => decide (f.confidence = c))) :=
  ⟨sortFixes_pairwise _, fun c => filter_sortFixes c _⟩

/-- C10: `options.maxSuggestions` is never read — `computeFixes` returns
identical output for any two values of it — and at most one suggestion per
href is emitted regardless. -/
theorem computeFixes_maxSuggestionsUnused (b : List LinkCheckResult) (kg : List String)
    (r : List LinkCheckResult) (mc : Option ℚ) (m1 m2 : Option Nat) :
    computeFixes b kg r { minConfidence := mc, maxSuggestions := m1 } =
      computeFixes b kg r { minConfidence := mc, maxSuggestions := m2 } ∧
    (∀ h' : String,
      (computeFixes b kg r { minConfidence := mc, maxSuggestions := m1 }).countP
        (fun f => decide (f.originalHref = h')) ≤ 1) :=
  ⟨rfl, fun h' => computeFixes_countP_le_one b kg r _ h'⟩

/-- C1 counterexample: two broken results with the same href and the same
source page.  The merged `sourcePages` is `[p, p]` — the source pages are
concatenated, not deduplicated, refuting the "deduplicated" part of the
claim at this input. -/
theorem computeFixes_dedup_cx :
    computeFixes [cxBroken, cxBroken] [] [cxRed] {} =
      [{ originalHref := "https://site.example/missing",
         suggestedHref := "https://site.example/found", confidence := 95/100,
         method := "redirect-target",
         sourcePages := ["https://site.example/p", "https://site.example/p"] }] ∧
    ¬ (["https://site.example/p", "https://site.example/p"] : List String).Nodup := by
  constructor
  · norm_num [computeFixes, computeFixesPre, brokenByUrl, insertGroup, redirectTargets,
      mapSet, mapGet, entryFixes, fuzzyFixes, bestMatchFor, sortFixes, insertFix,
      cxBroken, cxRed, (by decide : "https://site.example/found" ≠ "")]
  · decide

/-- C1 witness: the amended theorem applied at a concrete input. -/
theorem computeFixes_groupsByHref_witness :
    wFix ∈ computeFixes [wBroken] [] [wRed] {} ∧
    wFix.sourcePages =
      (List.filter (fun res => decide (res.href = wFix.originalHref)) [wBroken]).map
        LinkCheckResult.sourcePage := by
  have heq : computeFixes [wBroken] [] [wRed] {} = [wFix] := by
    norm_num [computeFixes, computeFixesPre, brokenByUrl, insertGroup, redirectTargets,
      mapSet, mapGet, entryFixes, fuzzyFixes, bestMatchFor, sortFixes, insertFix,
      wBroken, wRed, wFix, (by decide : "https://w.example/b" ≠ "")]
  have hmem : wFix ∈ computeFixes [wBroken] [] [wRed] {} := by
    rw [heq]
    exact List.mem_singleton_self _
  exact ⟨hmem, (computeFixes_groupsByHref [wBroken] [] [wRed] {}).2 wFix hmem⟩

/-- C2 witness: the theorem applied at a concrete input with a redirect
target, a known-good candidate, and the default `minConfidence`. -/
theorem computeFixes_redirectTargetWins_witness :
    ("https://cw.example/broken" ∈ [cwBroken].map LinkCheckResult.href) ∧
    mapGet "https://cw.example/broken" (redirectTargets [cwRed]) =
      some "https://cw.example/fixed" ∧
    (({} : FixOptions).minConfidence.getD (4/10) ≤ 95/100) ∧
    (computeFixes [cwBroken] ["https://cw.example/candidate"] [cwRed] {}).filter
        (fun f => decide (f.originalHref = "https://cw.example/broken")) =
      [{ originalHref := "https://cw.example/broken",
         suggestedHref := "https://cw.example/fixed", confidence := 95/100,
         method := "redirect-target",
         sourcePages :=
           (List.filter (fun res => decide (res.href = "https://cw.example/broken"))
             [cwBroken]).map LinkCheckResult.sourcePage }] := by
  refine ⟨by decide, by decide, by norm_num, ?_⟩
  exact computeFixes_redirectTargetWins [cwBroken] ["https://cw.example/candidate"]
    [cwRed] {} "https://cw.example/broken" "https://cw.example/fixed"
    (by decide) (by decide) (by norm_num)

/-- C3: when `followRedirects` is enabled and the check encounters a chain
of 11 redirect responses, each a 3xx with a `Location` header (`urls i` is
the URL reached after `i` hops), `checkUrl` returns `statusCode = none` and
`error = "Too many redirects"` without raising. -/
theorem checkUrl_tooManyRedirects (fetch : String → FetchOutcome)
    (resolve : String → String → String) (urls : Nat → String)
    (h : ∀ i, i ≤ 10 → ∃ s l, fetch (urls i) = FetchOutcome.resp s (some l) ∧
      300 ≤ s ∧ s < 400 ∧ resolve l (urls i) = urls (i + 1)) :
    (checkUrl fetch resolve (urls 0) true).statusCode = none ∧
    (checkUrl fetch resolve (urls 0) true).error = some "Too many redirects" := by
  have := checkUrlLoop_allRedirect fetch resolve 11 urls [] (fun i hi => h i (by omega))
  simpa [checkUrl] using this

/-- C3 witness: a concrete oracle that always answers 301 with a
`Location`. -/
theorem checkUrl_tooManyRedirects_witness :
    (checkUrl (fun _ => FetchOutcome.resp 301 (some "https://e.example/r"))
      (fun l _ => l) "https://e.example/r" true).statusCode = none ∧
    (checkUrl (fun _ => FetchOutcome.resp 301 (some "https://e.example/r"))
      (fun l _ => l) "https://e.example/r" true).error = some "Too many redirects" :=
  checkUrl_tooManyRedirects _ _ (fun _ => "https://e.example/r")
    (fun _ _ => ⟨301, "https://e.example/r", rfl, by omega, by omega, rfl⟩)

/-- C5 (amended): when every unit of work resolves (encoding any failure
inside its own result value, as `checkUrl` does), `asyncPool` completes and
returns one result per item; a unit of work that rejects instead rejects
the whole pool (see the counterexample). -/
theorem asyncPool_resultPerItem {T R : Type} (items : List T) (concurrency : Nat)
    (g : T → R) :
    asyncPool items concurrency (fun i => Except.ok (g i)) = Except.ok (items.map g) ∧
    (items.map g).length = items.length := by
  constructor
  · have := asyncPool_aux g items []
    simpa [asyncPool] using this
  · simp

/-- C5 counterexample: a rejecting unit of work makes `asyncPool` itself
reject — the pool propagates the exception instead of completing with one
result object per item. -/
theorem asyncPool_rejects_cx :
    asyncPool [0] 5 (fun _ => (Except.error "boom" : Except String Nat)) =
      Except.error "boom" ∧
    (asyncPool [0] 5 (fun _ => (Except.error "boom" : Except String Nat))).isOk = false := by
  exact ⟨rfl, rfl⟩

/-! ## Lemmas: the crawl loop -/

lemma processLinks_visited (url : String) (links : List String) (st : CrawlState) :
    (processLinks url links st).visited = st.visited := by
  induction links generalizing st with
  | nil => rfl
  | cons l ls ih =>
    show (processLinks url ls _).visited = _
    rw [ih]
    by_cases hc : l ∉ ({ st with allLinks := recordLink l url st.allLinks } : CrawlState).visited
        ∧ l ∉ ({ st with allLinks := recordLink l url st.allLinks } : CrawlState).toVisit
    · simp only [processLinks, List.foldl_cons, if_pos hc]
    · simp only [processLinks, List.foldl_cons, if_neg hc]

lemma crawlStep_visited_excluded {render : String → Option (List String)}
    {excluded : String → Bool} {maxPages : Nat} {st st' : CrawlState}
    (hinv : ∀ u ∈ st.visited, excluded u = false)
    (hstep : crawlStep render excluded maxPages st = some st') :
    ∀ u ∈ st'.visited, excluded u = false := by
  simp only [crawlStep] at hstep
  split at hstep
  · exact absurd hstep (by simp)
  · rename_i url rest htv
    split at hstep
    · exact absurd hstep (by simp)
    · split at hstep
      · rw [Option.some.injEq] at hstep
        subst hstep
        exact hinv
      · split at hstep
        · rw [Option.some.injEq] at hstep
          subst hstep
          exact hinv
        · rename_i hmax hvis hexc
          have hexc' : excluded url = false := by
            cases h : excluded url
            · rfl
            · exact absurd h hexc
          have hmem : ∀ u ∈ st.visited ++ [url], excluded u = false := by
            intro u hu
            rcases List.mem_append.mp hu with hu | hu
            · exact hinv u hu
            · rw [List.mem_singleton.mp hu]
              exact hexc'
          split at hstep
          · rw [Option.some.injEq] at hstep
            subst hstep
            exact hmem
          · rw [Option.some.injEq] at hstep
            subst hstep
            rw [processLinks_visited]
            exact hmem

lemma crawlSteps_visited_excluded (render : String → Option (List String))
    (excluded : String → Bool) (maxPages n : Nat) (st : CrawlState)
    (hinv : ∀ u ∈ st.visited, excluded u = false) :
    ∀ u ∈ (crawlSteps render excluded maxPages n st).visited, excluded u = false := by
  induction n generalizing st with
  | zero => exact hinv
  | succ n ih =>
    unfold crawlSteps
    cases hstep : crawlStep render excluded maxPages st with
    | none => exact hinv
    | some st' => exact ih st' (crawlStep_visited_excluded hinv hstep)

/-- C9 (amended): throughout every crawl, a URL matching a caller-supplied
exclusion predicate is never visited — but, as the counterexample shows, a
popped-and-discarded excluded URL can re-enter the frontier when a
later-visited page links to it. -/
theorem crawl_excluded_neverVisited (render : String → Option (List String))
    (excluded : String → Bool) (maxPages n : Nat) (root u : String)
    (hu : excluded u = true) :
    u ∉ (crawlSteps render excluded maxPages n (crawlInit root)).visited := by
  intro hmem
  have hfalse := crawlSteps_visited_excluded render excluded maxPages n (crawlInit root)
    (by simp [crawlInit]) u hmem
  rw [hu] at hfalse
  exact absurd hfalse (by simp)

/-- C9 counterexample: after the excluded URL `c9x` is popped from the
frontier and discarded (step 2), the later crawl of `c9b` (step 3) pushes
`c9x` back into the frontier — refuting "never re-enters the frontier
queue". -/
theorem crawl_excluded_requeued_cx :
    (crawlSteps c9render c9excluded 100 1 (crawlInit c9root)).toVisit = [c9x, c9b] ∧
    c9excluded c9x = true ∧
    (crawlSteps c9render c9excluded 100 2 (crawlInit c9root)).toVisit = [c9b] ∧
    c9x ∉ (crawlSteps c9render c9excluded 100 2 (crawlInit c9root)).visited ∧
    c9x ∈ (crawlSteps c9render c9excluded 100 3 (crawlInit c9root)).toVisit := by
  refine ⟨?_, ?_, ?_, ?_, ?_⟩ <;> decide

/-- C9 witness: the amended theorem applied to the concrete crawl. -/
theorem crawl_excluded_neverVisited_witness :
    c9excluded c9x = true ∧
    c9x ∉ (crawlSteps c9render c9excluded 100 3 (crawlInit c9root)).visited :=
  ⟨by decide, crawl_excluded_neverVisited c9render c9excluded 100 3 c9root c9x (by decide)⟩

/-! ## Lemmas: splitFirst -/

lemma splitFirst_not_mem (c : Char) (l : List Char) : c ∉ (splitFirst c l).1 := by
  induction l with
  | nil => simp [splitFirst]
  | cons x xs ih =>
    by_cases hx : x = c
    · simp [splitFirst, hx]
    · simp only [splitFirst, if_neg hx]
      intro hc
      rcases List.mem_cons.mp hc with h1 | h1
      · exact hx h1.symm
      · exact ih h1

lemma splitFirst_none_eq {c : Char} {l : List Char}
    (h : (splitFirst c l).2 = none) : (splitFirst c l).1 = l := by
  induction l with
  | nil => simp [splitFirst]
  | cons x xs ih =>
    by_cases hx : x = c
    · simp [splitFirst, hx] at h
    · simp only [splitFirst, if_neg hx] at h ⊢
      rw [ih h]

lemma splitFirst_some_eq {c : Char} {l r : List Char}
    (h : (splitFirst c l).2 = some r) : l = (splitFirst c l).1 ++ c :: r := by
  induction l generalizing r with
  | nil => simp [splitFirst] at h
  | cons x xs ih =>
    by_cases hx : x = c
    · simp only [splitFirst, if_pos hx] at h ⊢
      rw [Option.some.injEq] at h
      subst h
      rw [hx]
      rfl
    · simp only [splitFirst, if_neg hx] at h ⊢
      rw [List.cons_append, ← ih h]

lemma splitFirst_of_not_mem {c : Char} {l : List Char} (h : c ∉ l) :
    splitFirst c l = (l, none) := by
  induction l with
  | nil => rfl
  | cons x xs ih =>
    have hx : x ≠ c := fun hc => h (by rw [hc]; exact List.mem_cons_self _ _)
    have hxs : c ∉ xs := fun hc => h (List.mem_cons_of_mem _ hc)
    simp [splitFirst, hx, ih hxs]

lemma splitFirst_append_some {c : Char} {a : List Char} (r : List Char) (h : c ∉ a) :
    splitFirst c (a ++ c :: r) = (a, some r) := by
  induction a with
  | nil => simp [splitFirst]
  | cons x xs ih =>
    have hx : x ≠ c := fun hc => h (by rw [hc]; exact List.mem_cons_self _ _)
    have hxs : c ∉ xs := fun hc => h (List.mem_cons_of_mem _ hc)
    simp [splitFirst, hx, ih hxs]

lemma mem_of_mem_splitFirst_fst {c x : Char} {l : List Char}
    (h : x ∈ (splitFirst c l).1) : x ∈ l := by
  cases hs : (splitFirst c l).2 with
  | none => rw [splitFirst_none_eq hs] at h; exact h
  | some r => rw [splitFirst_some_eq hs]; exact List.mem_append_left _ h

lemma mem_of_mem_splitFirst_snd {c x : Char} {l r : List Char}
    (hs : (splitFirst c l).2 = some r) (h : x ∈ r) : x ∈ l := by
  rw [splitFirst_some_eq hs]
  exact List.mem_append_right _ (List.mem_cons_of_mem _ h)

lemma scheme_chars {a : List Char} (h : a.all isSchemeChar = true) :
    ':' ∉ a ∧ '/' ∉ a ∧ '?' ∉ a ∧ '#' ∉ a := by
  rw [List.all_eq_true] at h
  refine ⟨fun hc => ?_, fun hc => ?_, fun hc => ?_, fun hc => ?_⟩ <;>
    exact absurd (h _ hc) (by decide)

/-! ## Lemmas: well-formedness of parsed URLs -/

lemma parseUrlL_wf {l : List Char} {p : URLRec} (h : parseUrlL l = some p) :
    WfURL p := by
  simp only [parseUrlL] at h
  split at h
  · exact absurd h (by simp)
  · split at h
    · exact absurd h (by simp)
    · split at h
      · exact absurd h (by simp)
      · split at h
        · split at h
          · exact absurd h (by simp)
          · rename_i hne hall hrest0 hp heq hhost
            rw [not_not] at hall
            rw [Option.some.injEq] at h
            subst h
            have hBH : '#' ∉ (splitFirst '#' l).1 := splitFirst_not_mem _ _
            have hBQ : '?' ∉ (splitFirst '?' (splitFirst '#' l).1).1 :=
              splitFirst_not_mem _ _
            have hhpq : ∀ x ∈ hp, x ≠ '?' := by
              intro x hx hc
              subst hc
              exact hBQ (mem_of_mem_splitFirst_snd heq
                (List.mem_cons_of_mem _ (List.mem_cons_of_mem _ hx)))
            have hhph : ∀ x ∈ hp, x ≠ '#' := by
              intro x hx hc
              subst hc
              exact hBH (mem_of_mem_splitFirst_fst
                (mem_of_mem_splitFirst_snd heq
                  (List.mem_cons_of_mem _ (List.mem_cons_of_mem _ hx))))
            refine ⟨hne, hall, hhost, splitFirst_not_mem _ _, ?_, ?_, ?_, ?_, ?_, ?_⟩
            · intro hc
              exact hhpq '?' (mem_of_mem_splitFirst_fst hc) rfl
            · intro hc
              exact hhph '#' (mem_of_mem_splitFirst_fst hc) rfl
            · cases hsnd : (splitFirst '/' hp).2 with
              | none => exact ⟨[], by simp [hsnd]⟩
              | some pp => exact ⟨pp, by simp [hsnd]⟩
            · cases hsnd : (splitFirst '/' hp).2 with
              | none => simp [hsnd]
              | some pp =>
                simp only [hsnd]
                intro hc
                rcases List.mem_cons.mp hc with h1 | h1
                · exact absurd h1 (by decide)
                · exact hhpq '?' (mem_of_mem_splitFirst_snd hsnd h1) rfl
            · cases hsnd : (splitFirst '/' hp).2 with
              | none => simp [hsnd]
              | some pp =>
                simp only [hsnd]
                intro hc
                rcases List.mem_cons.mp hc with h1 | h1
                · exact absurd h1 (by decide)
                · exact hhph '#' (mem_of_mem_splitFirst_snd hsnd h1) rfl
            · intro q hq hc
              exact hBH (mem_of_mem_splitFirst_snd hq hc)
        · exact absurd h (by simp)

/-! ## Lemmas: serialize/parse roundtrip -/

lemma dropLast_append_ne (a b : List Char) (h : b ≠ []) :
    (a ++ b).dropLast = a ++ b.dropLast := by
  induction a with
  | nil => simp
  | cons x xs ih =>
    have hne : xs ++ b ≠ [] := by simp [h]
    rw [List.cons_append, List.dropLast_cons_of_ne_nil hne, ih, List.cons_append]

lemma getLast?_append_ne (a b : List Char) (h : b ≠ []) :
    (a ++ b).getLast? = b.getLast? := by
  cases hb : b.getLast? with
  | none =>
    exfalso
    exact h (by simpa using hb)
  | some y => rw [List.getLast?_append, hb]; rfl

lemma serializeL_parse {p : URLRec} (hwf : WfURL p) (hh : p.hash = none) :
    parseUrlL (serializeL p) = some p := by
  obtain ⟨A, H, P, Q, hs⟩ := p
  simp only at hh
  subst hh
  obtain ⟨hA, hAall, hH, hHs, hHq, hHh, ⟨pr, hP⟩, hPq, hPh, hQs⟩ := hwf
  simp only at hA hAall hH hHs hHq hHh hP hPq hPh hQs
  subst hP
  obtain ⟨hsc, hss, hsq, hsh⟩ := scheme_chars hAall
  have hprq : '?' ∉ pr := fun hc => hPq (List.mem_cons_of_mem _ hc)
  have hprh : '#' ∉ pr := fun hc => hPh (List.mem_cons_of_mem _ hc)
  cases Q with
  | none =>
    have hS : serializeL ⟨A, H, '/' :: pr, none, none⟩ =
        A ++ ':' :: '/' :: '/' :: (H ++ '/' :: pr) := by
      simp [serializeL, optPart]
    have hnoh : '#' ∉ A ++ ':' :: '/' :: '/' :: (H ++ '/' :: pr) := by
      intro hc
      rcases List.mem_append.mp hc with hc | hc
      · exact hsh hc
      · rcases List.mem_cons.mp hc with hc | hc
        · exact absurd hc (by decide)
        · rcases List.mem_cons.mp hc with hc | hc
          · exact absurd hc (by decide)
          · rcases List.mem_cons.mp hc with hc | hc
            · exact absurd hc (by decide)
            · rcases List.mem_append.mp hc with hc | hc
              · exact hHh hc
              · exact hPh hc
    have hnoq : '?' ∉ A ++ ':' :: '/' :: '/' :: (H ++ '/' :: pr) := by
      intro hc
      rcases List.mem_append.mp hc with hc | hc
      · exact hsq hc
      · rcases List.mem_cons.mp hc with hc | hc
        · exact absurd hc (by decide)
        · rcases List.mem_cons.mp hc with hc | hc
          · exact absurd hc (by decide)
          · rcases List.mem_cons.mp hc with hc | hc
            · exact absurd hc (by decide)
            · rcases List.mem_append.mp hc with hc | hc
              · exact hHq hc
              · exact hPq hc
    have h1 : splitFirst '#' (A ++ ':' :: '/' :: '/' :: (H ++ '/' :: pr)) =
        (A ++ ':' :: '/' :: '/' :: (H ++ '/' :: pr), none) :=
      splitFirst_of_not_mem hnoh
    have h2 : splitFirst '?' (A ++ ':' :: '/' :: '/' :: (H ++ '/' :: pr)) =
        (A ++ ':' :: '/' :: '/' :: (H ++ '/' :: pr), none) :=
      splitFirst_of_not_mem hnoq
    have h3 : splitFirst ':' (A ++ ':' :: '/' :: '/' :: (H ++ '/' :: pr)) =
        (A, some ('/' :: '/' :: (H ++ '/' :: pr))) :=
      splitFirst_append_some _ hsc
    have h4 : splitFirst '/' (H ++ '/' :: pr) = (H, some pr) :=
      splitFirst_append_some _ hHs
    rw [hS]
    simp [parseUrlL, h1, h2, h3, h4, hA, hAall, hH]
  | some qs =>
    have hQh : '#' ∉ qs := hQs qs rfl
    have hBL : (A ++ ':' :: '/' :: '/' :: (H ++ '/' :: pr)) ++ '?' :: qs =
        A ++ ':' :: '/' :: '/' :: (H ++ '/' :: (pr ++ '?' :: qs)) := by
      simp
    have hS : serializeL ⟨A, H, '/' :: pr, some qs, none⟩ =
        A ++ ':' :: '/' :: '/' :: (H ++ '/' :: (pr ++ '?' :: qs)) := by
      simp [serializeL, optPart]
    have hnoq : '?' ∉ A ++ ':' :: '/' :: '/' :: (H ++ '/' :: pr) := by
      intro hc
      rcases List.mem_append.mp hc with hc | hc
      · exact hsq hc
      · rcases List.mem_cons.mp hc with hc | hc
        · exact absurd hc (by decide)
        · rcases List.mem_cons.mp hc with hc | hc
          · exact absurd hc (by decide)
          · rcases List.mem_cons.mp hc with hc | hc
            · exact absurd hc (by decide)
            · rcases List.mem_append.mp hc with hc | hc
              · exact hHq hc
              · exact hPq hc
    have hnoh : '#' ∉ A ++ ':' :: '/' :: '/' :: (H ++ '/' :: (pr ++ '?' :: qs)) := by
      rw [← hBL]
      intro hc
      rcases List.mem_append.mp hc with hc | hc
      · rcases List.mem_append.mp hc with hc | hc
        · exact hsh hc
        · rcases List.mem_cons.mp hc with hc | hc
          · exact absurd hc (by decide)
          · rcases List.mem_cons.mp hc with hc | hc
            · exact absurd hc (by decide)
            · rcases List.mem_cons.mp hc with hc | hc
              · exact absurd hc (by decide)
              · rcases List.mem_append.mp hc with hc | hc
                · exact hHh hc
                · exact hPh hc
      · rcases List.mem_cons.mp hc with hc | hc
        · exact absurd hc (by decide)
        · exact hQh hc
    have h1 : splitFirst '#' (A ++ ':' :: '/' :: '/' :: (H ++ '/' :: (pr ++ '?' :: qs))) =
        (A ++ ':' :: '/' :: '/' :: (H ++ '/' :: (pr ++ '?' :: qs)), none) :=
      splitFirst_of_not_mem hnoh
    have h2 : splitFirst '?' (A ++ ':' :: '/' :: '/' :: (H ++ '/' :: (pr ++ '?' :: qs))) =
        (A ++ ':' :: '/' :: '/' :: (H ++ '/' :: pr), some qs) := by
      rw [← hBL]
      exact splitFirst_append_some _ hnoq
    have h3 : splitFirst ':' (A ++ ':' :: '/' :: '/' :: (H ++ '/' :: pr)) =
        (A, some ('/' :: '/' :: (H ++ '/' :: pr))) :=
      splitFirst_append_some _ hsc
    have h4 : splitFirst '/' (H ++ '/' :: pr) = (H, some pr) :=
      splitFirst_append_some _ hHs
    rw [hS]
    simp [parseUrlL, h1, h2, h3, h4, hA, hAall, hH]

/-! ## Lemmas: normalizeUrl idempotence -/

lemma hash_none_update {p2 : URLRec} (hh2 : p2.hash = none) :
    ({ p2 with hash := none } : URLRec) = p2 := by
  obtain ⟨A, H, P, Q, hs⟩ := p2
  simp only at hh2
  subst hh2
  rfl

lemma endsWithSlash_iff {l : List Char} :
    endsWithSlash l = true ↔ l.getLast? = some '/' := by
  simp [endsWithSlash]

lemma normalizeL_serializeL {p2 : URLRec} (hwf2 : WfURL p2) (hh2 : p2.hash = none)
    (hcond : ¬ (endsWithSlash (serializeL p2) = true ∧ p2.pathname ≠ ['/'])) :
    normalizeL (serializeL p2) = serializeL p2 := by
  have hrt := serializeL_parse hwf2 hh2
  simp only [normalizeL, hrt, hash_none_update hh2]
  rw [if_neg hcond]

lemma getLast?_cons_ne {x : Char} {l : List Char} (h : l ≠ []) :
    (x :: l).getLast? = l.getLast? := by
  have := getLast?_append_ne [x] l h
  simpa using this

lemma strip_still_serializes {p2 : URLRec} (hwf2 : WfURL p2) (hh2 : p2.hash = none)
    (hend : endsWithSlash (serializeL p2) = true) (hroot : p2.pathname ≠ ['/']) :
    ∃ p3 : URLRec, WfURL p3 ∧ p3.hash = none ∧
      (serializeL p2).dropLast = serializeL p3 := by
  obtain ⟨A, H, P, Q, hs⟩ := p2
  simp only at hh2 hroot
  subst hh2
  obtain ⟨hA, hAall, hH, hHs, hHq, hHh, ⟨pr, hP⟩, hPq, hPh, hQs⟩ := hwf2
  simp only at hA hAall hH hHs hHq hHh hP hPq hPh hQs
  subst hP
  rw [endsWithSlash_iff] at hend
  cases Q with
  | none =>
    have hs0 : serializeL ⟨A, H, '/' :: pr, none, none⟩ =
        (A ++ ':' :: '/' :: '/' :: H) ++ '/' :: pr := by
      simp only [serializeL, optPart, List.append_nil]
    have hprne : pr ≠ [] := by
      intro hc
      subst hc
      exact hroot rfl
    have hlast : pr.getLast? = some '/' := by
      rw [hs0, getLast?_append_ne _ _ (by simp), getLast?_cons_ne hprne] at hend
      exact hend
    refine ⟨⟨A, H, '/' :: pr.dropLast, none, none⟩, ?_, rfl, ?_⟩
    · refine ⟨hA, hAall, hH, hHs, hHq, hHh, ⟨pr.dropLast, rfl⟩, ?_, ?_, by simp⟩
      · intro hc
        rcases List.mem_cons.mp hc with hc | hc
        · exact absurd hc (by decide)
        · exact hPq (List.mem_cons_of_mem _ (List.dropLast_subset pr hc))
      · intro hc
        rcases List.mem_cons.mp hc with hc | hc
        · exact absurd hc (by decide)
        · exact hPh (List.mem_cons_of_mem _ (List.dropLast_subset pr hc))
    · have hs1 : serializeL ⟨A, H, '/' :: pr.dropLast, none, none⟩ =
          (A ++ ':' :: '/' :: '/' :: H) ++ '/' :: pr.dropLast := by
        simp only [serializeL, optPart, List.append_nil]
      rw [hs0, hs1, dropLast_append_ne _ _ (by simp),
        List.dropLast_cons_of_ne_nil hprne]
  | some qs =>
    have hs0 : serializeL ⟨A, H, '/' :: pr, some qs, none⟩ =
        ((A ++ ':' :: '/' :: '/' :: H) ++ '/' :: pr) ++ '?' :: qs := by
      simp only [serializeL, optPart, List.append_nil]
    have hqsne : qs ≠ [] := by
      intro hc
      subst hc
      rw [hs0, getLast?_append_ne _ _ (by simp)] at hend
      simp at hend
    have hlast : qs.getLast? = some '/' := by
      rw [hs0, getLast?_append_ne _ _ (by simp), getLast?_cons_ne hqsne] at hend
      exact hend
    refine ⟨⟨A, H, '/' :: pr, some qs.dropLast, none⟩, ?_, rfl, ?_⟩
    · refine ⟨hA, hAall, hH, hHs, hHq, hHh, ⟨pr, rfl⟩, hPq, hPh, ?_⟩
      intro q hq hc
      simp only [Option.some.injEq] at hq
      subst hq
      exact hQs qs rfl (List.dropLast_subset qs hc)
    · have hs1 : serializeL ⟨A, H, '/' :: pr, some qs.dropLast, none⟩ =
          ((A ++ ':' :: '/' :: '/' :: H) ++ '/' :: pr) ++ '?' :: qs.dropLast := by
        simp only [serializeL, optPart, List.append_nil]
      rw [hs0, hs1, dropLast_append_ne _ _ (by simp),
        List.dropLast_cons_of_ne_nil hqsne]

lemma normalizeL_idem (l : List Char)
    (h : stillStrippableL (normalizeL l) = false) :
    normalizeL (normalizeL l) = normalizeL l := by
  cases hp : parseUrlL l with
  | none =>
    have hl : normalizeL l = l := by simp [normalizeL, hp]
    rw [hl]
    exact hl
  | some p =>
    have hwf : WfURL p := parseUrlL_wf hp
    have hwf2 : WfURL ({ p with hash := none } : URLRec) := hwf
    have hh2 : ({ p with hash := none } : URLRec).hash = none := rfl
    have hnl : normalizeL l =
        if endsWithSlash (serializeL { p with hash := none }) = true ∧
            ({ p with hash := none } : URLRec).pathname ≠ ['/'] then
          (serializeL { p with hash := none }).dropLast
        else serializeL { p with hash := none } := by
      simp only [normalizeL, hp]
    by_cases hcond : endsWithSlash (serializeL { p with hash := none }) = true ∧
        ({ p with hash := none } : URLRec).pathname ≠ ['/']
    · obtain ⟨hend, hroot⟩ := hcond
      obtain ⟨p3, hwf3, hh3, heq3⟩ := strip_still_serializes hwf2 hh2 hend hroot
      have hv : normalizeL l = serializeL p3 := by
        rw [hnl, if_pos ⟨hend, hroot⟩, heq3]
      rw [hv]
      have hrt3 : parseUrlL (serializeL p3) = some p3 := serializeL_parse hwf3 hh3
      have hst : stillStrippableL (serializeL p3) = false := by
        rw [← hv]
        exact h
      have hcond3 : ¬ (endsWithSlash (serializeL p3) = true ∧ p3.pathname ≠ ['/']) := by
        intro hc
        obtain ⟨he, hr⟩ := hc
        simp only [stillStrippableL, hrt3, he, Bool.true_and] at hst
        rw [decide_eq_false_iff_not] at hst
        exact hst hr
      exact normalizeL_serializeL hwf3 hh3 hcond3
    · have hv : normalizeL l = serializeL { p with hash := none } := by
        rw [hnl, if_neg hcond]
      rw [hv]
      exact normalizeL_serializeL hwf2 hh2 hcond

/-- C4 (amended): `normalizeUrl` is idempotent on every input whose
normalized form does not still end in a strippable slash — i.e. unless the
URL's path or query ends in a doubled slash, in which case each
application removes exactly one more slash (see the counterexample). -/
theorem normalizeUrl_idempotent (u : String)
    (h : stillStrippable (normalizeUrl u) = false) :
    normalizeUrl (normalizeUrl u) = normalizeUrl u := by
  have hl := normalizeL_idem u.data h
  unfold normalizeUrl
  congr 1

/-- C4 counterexample: a path ending in a doubled slash.  One application
strips one slash, a second application strips another — `normalizeUrl` is
not idempotent as claimed. -/
theorem normalizeUrl_idempotent_cx :
    normalizeUrl "https://example.com/a//" = "https://example.com/a/" ∧
    normalizeUrl "https://example.com/a/" = "https://example.com/a" ∧
    normalizeUrl (normalizeUrl "https://example.com/a//") ≠
      normalizeUrl "https://example.com/a//" := by
  refine ⟨?_, ?_, ?_⟩ <;> decide

/-- C4 witness: the amended theorem applied to a URL with a single
trailing slash. -/
theorem normalizeUrl_idempotent_witness :
    stillStrippable (normalizeUrl "https://example.com/docs/") = false ∧
    normalizeUrl (normalizeUrl "https://example.com/docs/") =
      normalizeUrl "https://example.com/docs/" :=
  ⟨by decide, normalizeUrl_idempotent "https://example.com/docs/" (by decide)⟩

/-! ## Claim theorems: C7 and C8 -/

/-- C7: on broken href `https://example.com/docss/guide` with known-good
`["https://example.com/docs/guide"]`, no redirects and `minConfidence`
0.3, `computeFixes` returns exactly one suggestion — the known-good URL —
whose confidence `73/110` exceeds `0.6` and equals
`0.6 × (1/2) + 0.4 × (1 − levenshtein("docss/guide","docs/guide")/11)`. -/
theorem computeFixes_docssExample :
    computeFixes [c7Broken] ["https://example.com/docs/guide"] []
        { minConfidence := some (3/10) } =
      [{ originalHref := "https://example.com/docss/guide",
         suggestedHref := "https://example.com/docs/guide",
         confidence := 73/110, method := "path-similarity",
         sourcePages := ["https://example.com/page"] }] ∧
    (73/110 : ℚ) > 6/10 ∧
    (73/110 : ℚ) = (6/10) * (1/2) +
      (4/10) * (1 - (levenshtein "docss/guide".data "docs/guide".data : ℚ) / 11) := by
  refine ⟨?_, by norm_num, ?_⟩
  · have hsim : pathSimilarity "https://example.com/docss/guide"
        "https://example.com/docs/guide" = 73/110 := by
      have hsegA : pathSegments "https://example.com/docss/guide" =
          [['d','o','c','s','s'], ['g','u','i','d','e']] := by decide
      have hsegB : pathSegments "https://example.com/docs/guide" =
          [['d','o','c','s'], ['g','u','i','d','e']] := by decide
      have hmatch : (([['d','o','c','s','s'], ['g','u','i','d','e']].filter
          (fun s => [['d','o','c','s'], ['g','u','i','d','e']].contains s)).length) = 1 := by
        decide
      have hlev : levenshtein
          (List.intercalate ['/'] [['d','o','c','s','s'], ['g','u','i','d','e']])
          (List.intercalate ['/'] [['d','o','c','s'], ['g','u','i','d','e']]) = 1 := by
        decide
      have hlen : Nat.max
          (List.intercalate ['/'] [['d','o','c','s','s'], ['g','u','i','d','e']]).length
          (List.intercalate ['/'] [['d','o','c','s'], ['g','u','i','d','e']]).length = 11 := by
        decide
      simp only [pathSimilarity, hsegA, hsegB, hmatch, hlev, hlen]
      norm_num
    have hseg : (((pathSegments "https://example.com/docss/guide").filter
        (fun s => (pathSegments "https://example.com/docs/guide").contains s)).length) = 1 := by
      decide
    norm_num [computeFixes, computeFixesPre, brokenByUrl, insertGroup, redirectTargets,
      mapGet, entryFixes, fuzzyFixes, bestMatchFor, sortFixes, insertFix, hsim, hseg,
      c7Broken]
    intro hall
    exact absurd
      ((by decide) : ['g','u','i','d','e'] ∈ pathSegments "https://example.com/docs/guide")
      (hall ['g','u','i','d','e'] (by decide))
  · have hlev : levenshtein "docss/guide".data "docs/guide".data = 1 := by decide
    rw [hlev]
    norm_num

/-- C8: `fixesToRedirects` returns exactly the fixes at or above the
threshold, in order, each projected to the pathnames of its two hrefs with
status code 301; for every parseable URL the projection is path-only
(`/`-rooted, no query or fragment, hence no scheme or host). -/
theorem fixesToRedirects_thresholdPaths (fixes : List LinkFix) (minC : ℚ) :
    fixesToRedirects fixes minC =
      (fixes.filter (fun fix => decide (fix.confidence ≥ minC))).map
        (fun fix => { fromPath := getPathname fix.originalHref,
                      toPath := getPathname fix.suggestedHref, statusCode := 301 }) ∧
    (∀ e ∈ fixesToRedirects fixes minC, e.statusCode = 301) ∧
    (∀ url : String, ∀ p : URLRec, parseUrlL url.data = some p →
      getPathname url = String.mk p.pathname ∧ (∃ pr, p.pathname = '/' :: pr) ∧
      '?' ∉ p.pathname ∧ '#' ∉ p.pathname) := by
  refine ⟨rfl, ?_, ?_⟩
  · intro e he
    obtain ⟨fix, _, hfe⟩ := List.mem_map.mp he
    rw [← hfe]
  · intro url p hp
    have hwf := parseUrlL_wf hp
    obtain ⟨_, _, _, _, _, _, hpr, hq, hh, _⟩ := hwf
    exact ⟨by simp [getPathname, hp], hpr, hq, hh⟩

/-- C8 witness: the theorem applied at a concrete fix (confidence 1,
threshold 0) and a concrete parseable URL with query. -/
theorem fixesToRedirects_thresholdPaths_witness :
    (({ fromPath := "/old", toPath := "/new", statusCode := 301 } : RedirectEntry) ∈
      fixesToRedirects [wrFix] 0) ∧
    ({ fromPath := "/old", toPath := "/new", statusCode := 301 } : RedirectEntry).statusCode
      = 301 ∧
    (getPathname "https://wit.example/zig?q" = String.mk witP.pathname ∧
      (∃ pr, witP.pathname = '/' :: pr) ∧ '?' ∉ witP.pathname ∧ '#' ∉ witP.pathname) :=
  ⟨by decide,
   (fixesToRedirects_thresholdPaths [wrFix] 0).2.1 _ (by decide),
   (fixesToRedirects_thresholdPaths [wrFix] 0).2.2 "https://wit.example/zig?q" witP
     (by decide)⟩

end SiteAutofix
